import Mathlib

/-!
# Verification of the kirstine descriptive-statistics library

Shallow embedding of the library's three source files (`src/lib.rs`,
`src/population/mod.rs`, `src/sample/mod.rs`).

The Rust code computes over `f64`.  We model an `f64` value exactly by the
type `F` below: a finite value is an exact rational (`F.num q`, with
`F.num 0` standing for `+0.0`), and the special values `-0.0`, `+inf`,
`-inf` and `NaN` are separate constructors.  The arithmetic operations
(`Fadd`, `Fsub`, `Fmul`, `Fdiv`) follow the IEEE-754 rules for signs,
zeroes, infinities and NaN propagation, but finite results are exact
rationals: rounding of binary64 arithmetic is abstracted away.  All the
concrete datasets appearing in the claims are small decimal literals on
which the relevant computations are exact, so this abstraction is faithful
there.  `Fsqrt` is exact on perfect-square rationals (the only square roots
the claims evaluate is `sqrt 1`); non-perfect squares, which no claim
touches, are mapped to `F.nan`.

Rust panics are modelled by `Option`: a function that can panic returns
`none` exactly where the Rust code panics.
-/

set_option maxRecDepth 4000

namespace Kirstine

/-- Model of an `f64` value: exact rational for finite values
(`num 0` is `+0.0`), plus the IEEE special values. -/
inductive F where
  | num : ℚ → F
  | negzero : F
  | inf : F
  | neginf : F
  | nan : F
deriving DecidableEq, Repr

/-- Is this value a NaN? -/
def isNan : F → Bool
  | F.nan => true
  | _ => false

/-- The rational magnitude of a finite value (`-0.0` counts as `0`);
junk value `0` on non-finite values, which every caller rules out. -/
def FtoQ0 : F → ℚ
  | F.num q => q
  | _ => 0

/-- IEEE negation (`-x`): negating `+0.0` gives `-0.0` and vice versa. -/
def Fneg : F → F
  | F.nan => F.nan
  | F.inf => F.neginf
  | F.neginf => F.inf
  | F.negzero => F.num 0
  | F.num q => if q = 0 then F.negzero else F.num (-q)

/-- IEEE addition (round-to-nearest sign convention: a finite sum that
cancels to zero is `+0.0`; `-0.0 + -0.0 = -0.0`). Finite sums are exact. -/
def Fadd : F → F → F
  | F.nan, _ => F.nan
  | _, F.nan => F.nan
  | F.inf, F.neginf => F.nan
  | F.neginf, F.inf => F.nan
  | F.inf, _ => F.inf
  | _, F.inf => F.inf
  | F.neginf, _ => F.neginf
  | _, F.neginf => F.neginf
  | F.negzero, F.negzero => F.negzero
  | F.negzero, F.num q => F.num q
  | F.num q, F.negzero => F.num q
  | F.num a, F.num b => F.num (a + b)

/-- IEEE subtraction, defined as `x + (-y)` exactly as IEEE-754 does. -/
def Fsub (x y : F) : F := Fadd x (Fneg y)

/-- IEEE multiplication with the usual sign/zero/infinity/NaN rules;
finite products are exact. -/
def Fmul : F → F → F
  | F.nan, _ => F.nan
  | _, F.nan => F.nan
  | F.inf, F.inf => F.inf
  | F.inf, F.neginf => F.neginf
  | F.neginf, F.inf => F.neginf
  | F.neginf, F.neginf => F.inf
  | F.inf, F.negzero => F.nan
  | F.negzero, F.inf => F.nan
  | F.neginf, F.negzero => F.nan
  | F.negzero, F.neginf => F.nan
  | F.inf, F.num q => if q = 0 then F.nan else if q < 0 then F.neginf else F.inf
  | F.num q, F.inf => if q = 0 then F.nan else if q < 0 then F.neginf else F.inf
  | F.neginf, F.num q => if q = 0 then F.nan else if q < 0 then F.inf else F.neginf
  | F.num q, F.neginf => if q = 0 then F.nan else if q < 0 then F.inf else F.neginf
  | F.negzero, F.negzero => F.num 0
  | F.negzero, F.num q => if q < 0 then F.num 0 else F.negzero
  | F.num q, F.negzero => if q < 0 then F.num 0 else F.negzero
  | F.num a, F.num b =>
      if a * b = 0 then (if (a < 0 ↔ b < 0) then F.num 0 else F.negzero)
      else F.num (a * b)

/-- IEEE division: `x / ±0` is a signed infinity for nonzero finite `x`,
`0/0`, `inf/inf` and anything with NaN is NaN; finite quotients are exact. -/
def Fdiv : F → F → F
  | F.nan, _ => F.nan
  | _, F.nan => F.nan
  | F.inf, F.inf => F.nan
  | F.inf, F.neginf => F.nan
  | F.neginf, F.inf => F.nan
  | F.neginf, F.neginf => F.nan
  | F.inf, F.negzero => F.neginf
  | F.neginf, F.negzero => F.inf
  | F.inf, F.num q => if q < 0 then F.neginf else F.inf
  | F.neginf, F.num q => if q < 0 then F.inf else F.neginf
  | F.negzero, F.inf => F.negzero
  | F.num q, F.inf => if q < 0 then F.negzero else F.num 0
  | F.negzero, F.neginf => F.num 0
  | F.num q, F.neginf => if q < 0 then F.num 0 else F.negzero
  | F.negzero, F.negzero => F.nan
  | F.negzero, F.num q => if q = 0 then F.nan else if q < 0 then F.num 0 else F.negzero
  | F.num a, F.negzero => if a = 0 then F.nan else if a < 0 then F.inf else F.neginf
  | F.num a, F.num b =>
      if b = 0 then (if a = 0 then F.nan else if a < 0 then F.neginf else F.inf)
      else if a = 0 then (if b < 0 then F.negzero else F.num 0)
      else F.num (a / b)

/-- Linear-search integer square root: the largest `k ≤ bound` with
`k * k ≤ n`.  Structural recursion so that concrete values reduce. -/
def isqrtUpTo (n : ℕ) : ℕ → ℕ
  | 0 => 0
  | k + 1 => if (k + 1) * (k + 1) ≤ n then k + 1 else isqrtUpTo n k

/-- Integer square root (floor) of a natural number. -/
def natSqrtLin (n : ℕ) : ℕ := isqrtUpTo n n

/-- Model of `f64::sqrt`: exact on perfect-square rationals,
`sqrt (-0.0) = -0.0`, `sqrt inf = inf`, NaN on negative inputs.
A non-perfect-square argument (never evaluated by any claim) is outside the
exact-rational model and is mapped to NaN. -/
def Fsqrt : F → F
  | F.nan => F.nan
  | F.inf => F.inf
  | F.neginf => F.nan
  | F.negzero => F.negzero
  | F.num q =>
      if q < 0 then F.nan
      else
        let n := natSqrtLin q.num.toNat
        let d := natSqrtLin q.den
        if ((n : ℤ) * n = q.num ∧ d * d = q.den) then F.num ((n : ℚ) / (d : ℚ))
        else F.nan

/-- Absolute value of a model float (statement-side helper used to express
the spec's numeric tolerances). -/
def Fabs : F → F
  | F.nan => F.nan
  | F.inf => F.inf
  | F.neginf => F.inf
  | F.negzero => F.num 0
  | F.num q => if q < 0 then F.num (-q) else F.num q

/-- Model of `f64::partial_cmp`: `none` iff either operand is NaN,
otherwise the total order on `-inf < finite values < inf`
(with `-0.0` equal to `+0.0`). -/
def FcmpPartial : F → F → Option Ordering
  | F.nan, _ => none
  | _, F.nan => none
  | F.neginf, F.neginf => some Ordering.eq
  | F.neginf, _ => some Ordering.lt
  | _, F.neginf => some Ordering.gt
  | F.inf, F.inf => some Ordering.eq
  | _, F.inf => some Ordering.lt
  | F.inf, _ => some Ordering.gt
  | x, y =>
      if FtoQ0 x < FtoQ0 y then some Ordering.lt
      else if FtoQ0 y < FtoQ0 x then some Ordering.gt
      else some Ordering.eq

/-- Model of `f64`'s `<` (strict, false on any NaN operand). -/
def Flt (x y : F) : Bool := decide (FcmpPartial x y = some Ordering.lt)

/-- Model of `f64`'s `>` (strict, false on any NaN operand). -/
def Fgt (x y : F) : Bool := decide (FcmpPartial x y = some Ordering.gt)

/-- Model of `Iterator::sum` for `f64`: left fold of `+` from `0.0`. -/
def fsum (l : List F) : F := l.foldl Fadd (F.num 0)

/-- `mean` from `src/lib.rs`: `data.iter().sum() / data.len() as f64`.
Note: despite its doc comment, the Rust function has no emptiness guard;
on empty input it computes `0.0 / 0.0`. -/
def mean (data : List F) : F := Fdiv (fsum data) (F.num (data.length : ℚ))

/-- The comparator `median` passes to `sort_by`:
`m.partial_cmp(n).unwrap_or(Less)`. -/
def medianCmp (m n : F) : Ordering := (FcmpPartial m n).getD Ordering.lt

/-- Model of `f64`'s `<=`: true iff `partial_cmp` is `Less` or `Equal`
(false whenever either operand is NaN). -/
def Fle (x y : F) : Bool :=
  decide (FcmpPartial x y = some Ordering.lt ∨ FcmpPartial x y = some Ordering.eq)

/-- One shift step of the stable insertion both standard-library stable
sorts perform on short slices (`insert_tail` in the current driftsort,
`insert_head` in the legacy merge sort): insert `x` into the REVERSED
already-sorted prefix `rl` (the head of `rl` is the last element of the
prefix), moving `x` left past `y` exactly while `is_less x y`, where
`is_less a b` is `cmp a b == Less` as in the Rust code. -/
def insertRev (cmp : F → F → Ordering) (x : F) : List F → List F
  | [] => [x]
  | y :: ys =>
      if cmp x y = Ordering.lt then y :: insertRev cmp x ys else x :: y :: ys

/-- Model of `slice::sort_by` (a stable comparison sort): insertion sort
driven by `is_less(later, earlier)` tests, matching the standard library.
For a total-order comparator this agrees with every stable sort.  For the
non-total `medianCmp` (every NaN comparison is `Less`) the standard
library documents the order as unspecified; this model reproduces what
both stdlib implementations actually do on the NaN-containing inputs used
below, e.g. `[NaN, 1.0]` sorts to `[1.0, NaN]` (the one comparison made,
`is_less(1.0, NaN)`, is true, so they swap) and `[1.0, 2.0, NaN]` sorts
to `[NaN, 1.0, 2.0]` (the trailing NaN shifts past every element because
`is_less(NaN, y)` is always true). -/
def sortByRust (cmp : F → F → Ordering) (l : List F) : List F :=
  (l.foldl (fun acc x => insertRev cmp x acc) []).reverse

/-- `median_from_sorted` from `src/lib.rs`.  Panics (`none`) on empty
input; odd length takes the middle element, even length averages the two
middle elements.  The `getD` default is never used: both indices are in
bounds for nonempty input. -/
def median_from_sorted (data : List F) : Option F :=
  if data.isEmpty then none
  else if data.length % 2 = 1 then
    some (data.getD ((data.length - 1) / 2) F.nan)
  else
    let upper_index := data.length / 2
    let lower_index := upper_index - 1
    some (Fdiv (Fadd (data.getD upper_index F.nan) (data.getD lower_index F.nan))
      (F.num 2))

/-- `median` from `src/lib.rs`: sort a clone with `medianCmp`, then apply
`median_from_sorted`. -/
def median (data : List F) : Option F :=
  median_from_sorted (sortByRust medianCmp data)

/-- The equivalence class of the decimal string `f64`'s `to_string`
produces, used by `mode` as its `HashMap` key.  Rust's shortest-roundtrip
formatting is injective on distinct finite doubles, renders every NaN as
the same string `NaN`, and renders `0.0` as `0` but `-0.0` as `-0`; we
represent a string directly by the class of values it denotes. -/
inductive FKey where
  | numK : ℚ → FKey
  | nzeroK : FKey
  | infK : FKey
  | ninfK : FKey
  | nanK : FKey
deriving DecidableEq, Repr

/-- Model of `n.to_string()` on a model float, as the key class above. -/
def FtoKey : F → FKey
  | F.num q => FKey.numK q
  | F.negzero => FKey.nzeroK
  | F.inf => FKey.infK
  | F.neginf => FKey.ninfK
  | F.nan => FKey.nanK

/-- One step of `mode`'s loop: `nums.entry(n_str).or_insert((0, n))` then
`*count += 1`.  The stored representative is the first occurrence of the
key; a fresh key is appended. -/
def bump (k : FKey) (n : F) : List (FKey × ℕ × F) → List (FKey × ℕ × F)
  | [] => [(k, 1, n)]
  | e :: es => if e.1 = k then (e.1, e.2.1 + 1, e.2.2) :: es else e :: bump k n es

/-- The entry list `mode` builds: one `(key, count, first-occurrence)`
entry per distinct key.  Rust's `HashMap` iterates its entries in an
unspecified order; this model fixes first-insertion order, and every
property proved about it (counts, membership, maximality of the chosen
count) is independent of the entry order. -/
def modeEntries (data : List F) : List (FKey × ℕ × F) :=
  data.foldl (fun acc x => bump (FtoKey x) x acc) []

/-- Total count stored under a given key across an entry list. -/
def groupCount (k : FKey) (l : List (FKey × ℕ × F)) : ℕ :=
  (l.map fun e => if e.1 = k then e.2.1 else 0).sum

/-- One step of `Iterator::max_by` on counts: keep the accumulator only
when it compares strictly greater, so ties prefer the later element. -/
def maxStep (acc : Option (FKey × ℕ × F)) (e : FKey × ℕ × F) :
    Option (FKey × ℕ × F) :=
  match acc with
  | none => some e
  | some m => if m.2.1 > e.2.1 then some m else some e

/-- `nums.values().max_by(|(a, _), (b, _)| a.cmp(b))`. -/
def maxByCount (l : List (FKey × ℕ × F)) : Option (FKey × ℕ × F) :=
  l.foldl maxStep none

/-- `mode` from `src/lib.rs`: panics (`none`) on empty input, otherwise
groups by the string key and returns the stored representative of a group
with maximal count. -/
def mode (data : List F) : Option F :=
  if data.isEmpty then none
  else (maxByCount (modeEntries data)).map fun e => e.2.2

/-- One iteration of `range`'s loop over `(smallest, largest)`:
`if x > largest { largest = x }` and `if x < smallest { smallest = x }`
(the two updates read only `x` and the stored values, so their order is
immaterial). -/
def rangeStep (p : F × F) (x : F) : F × F :=
  (if Flt x p.1 then x else p.1, if Fgt x p.2 then x else p.2)

/-- `range` from `src/lib.rs`: panics (`none`) on empty input; otherwise a
single pass starting both trackers at `data[0]` (and revisiting it),
returning `(range, coefficient_of_range, (smallest, largest))`. -/
def range (data : List F) : Option (F × F × (F × F)) :=
  match data with
  | [] => none
  | d0 :: rest =>
      let p := (d0 :: rest).foldl rangeStep (d0, d0)
      let r := Fsub p.2 p.1
      some (r, Fdiv r (Fadd p.2 p.1), (p.1, p.2))

/-- `sum_of_squares` from `src/lib.rs`: `Σ (xᵢ - mu)²`; `powf(2.0)` on
these values coincides with self-multiplication. -/
def sum_of_squares (data : List F) (mu : F) : F :=
  fsum (data.map fun n => Fmul (Fsub n mu) (Fsub n mu))

/-- `chi_squared` from `src/lib.rs`: `Σ (expected - observed)² / expected`
over `(expected, observed)` pairs, with no guard on `expected == 0`. -/
def chi_squared (data : List (F × F)) : F :=
  fsum (data.map fun p => Fdiv (Fmul (Fsub p.1 p.2) (Fsub p.1 p.2)) p.1)

namespace population

/-- `population::variance` from `src/population/mod.rs`:
`sum_of_squares(population, mu) / population.len() as f64`.  No emptiness
guard: on empty input it computes `0.0 / 0.0`. -/
def variance (population : List F) (mu : F) : F :=
  let tss := Kirstine.sum_of_squares population mu
  Fdiv tss (F.num (population.length : ℚ))

/-- `population::standard_deviation`: square root of the variance. -/
def standard_deviation (dataset : List F) (mu : F) : F :=
  Fsqrt (variance dataset mu)

end population

namespace sample

/-- `sample::variance` from `src/sample/mod.rs`:
`sum_of_squares(sample, mu) / (sample.len() - 1) as f64`.  On empty input
the `usize` subtraction `len() - 1` underflows, which panics (modelled as
`none`). -/
def variance (sample : List F) (mu : F) : Option F :=
  if sample.length = 0 then none
  else
    let tss := Kirstine.sum_of_squares sample mu
    some (Fdiv tss (F.num ((sample.length - 1 : ℕ) : ℚ)))

/-- `sample::standard_deviation`: square root of the variance. -/
def standard_deviation (data : List F) (mu : F) : Option F :=
  (variance data mu).map Fsqrt

/-- `sample::z_score` from `src/sample/mod.rs`. -/
def z_score (mu_sample : F) (n_sample : ℕ) (mu_population : F)
    (sigma_population : F) : F :=
  let dividend := Fsub mu_sample mu_population
  let divisor := Fdiv sigma_population (Fsqrt (F.num (n_sample : ℚ)))
  Fdiv dividend divisor

/-- `sample::z_score_single_sample`: `z_score` with sample size 1. -/
def z_score_single_sample (sample : F) (mu : F) (sigma : F) : F :=
  z_score sample 1 mu sigma

end sample

/-- The dataset of the variance examples in both variance doc tests:
`[600.0, 470.0, 170.0, 430.0, 300.0]`. -/
def varianceFixture : List F :=
  [F.num 600, F.num 470, F.num 170, F.num 430, F.num 300]

/-- The 12-pair fixture of `chi_squared_test` in `src/lib.rs`: expected
`21.33333334` throughout. -/
def chiFixture : List (F × F) :=
  [(F.num (21.33333334 : ℚ), F.num 29), (F.num (21.33333334 : ℚ), F.num 24),
   (F.num (21.33333334 : ℚ), F.num 22), (F.num (21.33333334 : ℚ), F.num 19),
   (F.num (21.33333334 : ℚ), F.num 21), (F.num (21.33333334 : ℚ), F.num 18),
   (F.num (21.33333334 : ℚ), F.num 19), (F.num (21.33333334 : ℚ), F.num 20),
   (F.num (21.33333334 : ℚ), F.num 23), (F.num (21.33333334 : ℚ), F.num 18),
   (F.num (21.33333334 : ℚ), F.num 20), (F.num (21.33333334 : ℚ), F.num 23)]

/- Batteries seals the `Rat` arithmetic operations behind `@[irreducible]`;
the concrete evaluations below need them to reduce. -/
attribute [local semireducible] Rat.add Rat.mul Rat.inv Rat.sub Rat.ofScientific

/-- C1: on the empty dataset, `median`, `mode` and `range` do panic, but
`mean` and `population::variance` silently return the sentinel `NaN`
(`0.0 / 0.0`), contradicting `mean`'s own doc comment
(`Panics if dataset is empty.`) and the claimed fail-fast contract;
`sample::variance` only fails through an accidental `usize` underflow. -/
theorem C1_empty_not_fail_fast :
    mean ([] : List F) = F.nan ∧
    population.variance ([] : List F) (F.num 0) = F.nan ∧
    median ([] : List F) = none ∧
    mode ([] : List F) = none ∧
    range ([] : List F) = none ∧
    sample.variance ([] : List F) (F.num 0) = none := by
  decide

/-- C2 counterexample: sorting `[1.0, 2.0, NaN]` with `median`'s
comparator shifts the trailing NaN to the FRONT (every `is_less(NaN, y)`
test is true under the `unwrap_or(Less)` fallback), so in the internal
sorted copy `[NaN, 1.0, 2.0]` a NaN element sits before the non-NaN
elements, refuting "every NaN element is ordered at or after the non-NaN
elements". -/
theorem C2_counterexample :
    sortByRust medianCmp [F.num 1, F.num 2, F.nan] = [F.nan, F.num 1, F.num 2] ∧
    isNan F.nan = true ∧ isNan (F.num 1) = false ∧ isNan (F.num 2) = false := by
  decide

/-- C2 (amended): `median` sorts a clone of `data` with the comparator
`m.partial_cmp(n).unwrap_or(Less)`, which maps every NaN-involving
comparison to `Less` (not a greater-or-equal fallback), so the sort's
`is_less` tests give no guarantee that NaN elements are ordered at or
after the non-NaN elements in the internal sorted copy. -/
theorem C2_nan_cmp_lt (m n : F) (h : isNan m = true ∨ isNan n = true) :
    medianCmp m n = Ordering.lt ∧
    ∀ data : List F, median data = median_from_sorted (sortByRust medianCmp data) := by
  refine ⟨?_, fun data => rfl⟩
  rcases h with h | h <;>
    cases m <;> cases n <;> simp_all [isNan, medianCmp, FcmpPartial]

/-- Witness for C2 (amended) at `m = NaN`, `n = 1.0`. -/
theorem C2_nan_cmp_lt_witness :
    (isNan F.nan = true ∨ isNan (F.num 1) = true) ∧
    (medianCmp F.nan (F.num 1) = Ordering.lt ∧
      ∀ data : List F, median data = median_from_sorted (sortByRust medianCmp data)) :=
  ⟨Or.inl rfl, C2_nan_cmp_lt F.nan (F.num 1) (Or.inl rfl)⟩

/-- C8: `chi_squared` sums `(expected - observed)² / expected` over the
pairs with no special handling of `expected == 0`, and on the 12-pair
fixture the result is within `1e-7` of `5.09375` (`163/32`). -/
theorem C8_chi_squared_spec (data : List (F × F)) :
    chi_squared data =
      fsum (data.map fun p => Fdiv (Fmul (Fsub p.1 p.2) (Fsub p.1 p.2)) p.1) ∧
    Flt (Fabs (Fsub (chi_squared chiFixture) (F.num (163/32 : ℚ))))
      (F.num (1/10000000 : ℚ)) = true := by
  exact ⟨rfl, by decide⟩

/-- Dividing a model value by a nonzero natural `n` and multiplying back
by `n` is the identity in the exact-rational float model, for every model
value including the special ones. -/
theorem Fdiv_Fmul_cancel (t : F) (n : ℕ) (hn : n ≠ 0) :
    Fmul (Fdiv t (F.num (n : ℚ))) (F.num (n : ℚ)) = t := by
  have h0 : ((n : ℚ)) ≠ 0 := Nat.cast_ne_zero.mpr hn
  have hneg : ¬ ((n : ℚ) < 0) := not_lt.mpr (Nat.cast_nonneg n)
  cases t with
  | nan => simp [Fdiv, Fmul]
  | inf => simp [Fdiv, Fmul, h0, hneg]
  | neginf => simp [Fdiv, Fmul, h0, hneg]
  | negzero => simp [Fdiv, Fmul, h0, hneg]
  | num q =>
      by_cases hq : q = 0
      · subst hq; simp [Fdiv, Fmul, h0, hneg]
      · have hqn : q / (n : ℚ) * (n : ℚ) = q := div_mul_cancel₀ q h0
        simp [Fdiv, Fmul, h0, hneg, hq, hqn]

/-- C3: `population::variance` is `sum_of_squares / n` and
`sample::variance` is `sum_of_squares / (n - 1)`; on `[1.0, 2.0]` with
`mu = 0.0` they give the distinct values `2.5` and `5.0`, so the two
divisors are not collapsed. -/
theorem C3_variance_divisors (data : List F) (mu : F) (h : data ≠ []) :
    population.variance data mu =
      Fdiv (sum_of_squares data mu) (F.num (data.length : ℚ)) ∧
    sample.variance data mu =
      some (Fdiv (sum_of_squares data mu) (F.num ((data.length - 1 : ℕ) : ℚ))) ∧
    population.variance [F.num 1, F.num 2] (F.num 0) = F.num (5/2 : ℚ) ∧
    sample.variance [F.num 1, F.num 2] (F.num 0) = some (F.num 5) := by
  refine ⟨rfl, ?_, by decide, by decide⟩
  have hl : data.length ≠ 0 := by simpa using h
  simp [sample.variance, hl]

/-- Witness for C3 at `data = [1.0, 2.0]`, `mu = 0.0`. -/
theorem C3_variance_divisors_witness :
    ([F.num 1, F.num 2] : List F) ≠ [] ∧
    (population.variance [F.num 1, F.num 2] (F.num 0) =
      Fdiv (sum_of_squares [F.num 1, F.num 2] (F.num 0))
        (F.num (([F.num 1, F.num 2] : List F).length : ℚ)) ∧
    sample.variance [F.num 1, F.num 2] (F.num 0) =
      some (Fdiv (sum_of_squares [F.num 1, F.num 2] (F.num 0))
        (F.num ((([F.num 1, F.num 2] : List F).length - 1 : ℕ) : ℚ))) ∧
    population.variance [F.num 1, F.num 2] (F.num 0) = F.num (5/2 : ℚ) ∧
    sample.variance [F.num 1, F.num 2] (F.num 0) = some (F.num 5)) :=
  ⟨by decide, C3_variance_divisors [F.num 1, F.num 2] (F.num 0) (by decide)⟩

/-- C4 counterexample: on the empty dataset `sample::variance` panics
(`none`, via the `usize` underflow of `len() - 1`), so it does not equal
`population.variance * n / (n - 1)` (read with the mathematical value
`n - 1 = -1` at `n = 0`); the claimed identity fails for the empty
dataset. -/
theorem C4_counterexample :
    sample.variance ([] : List F) (F.num 0) ≠
      some (Fdiv (Fmul (population.variance ([] : List F) (F.num 0))
        (F.num (([] : List F).length : ℚ))) (F.num (-1 : ℚ))) := by
  decide

/-- C4 (amended): for every NON-EMPTY dataset and every `mu`,
`sample.variance data mu = population.variance data mu * n / (n - 1)`
(exact equality of model values), and on `[600, 470, 170, 430, 300]` with
`mu = mean` the two variances are `21704` and `27130`. -/
theorem C4_variance_ratio (data : List F) (mu : F) (h : data ≠ []) :
    sample.variance data mu =
      some (Fdiv (Fmul (population.variance data mu) (F.num (data.length : ℚ)))
        (F.num ((data.length - 1 : ℕ) : ℚ))) ∧
    population.variance varianceFixture (mean varianceFixture) = F.num 21704 ∧
    sample.variance varianceFixture (mean varianceFixture) = some (F.num 27130) := by
  refine ⟨?_, by decide, by decide⟩
  have hl : data.length ≠ 0 := by simpa using h
  have hc := Fdiv_Fmul_cancel (sum_of_squares data mu) data.length hl
  simp [sample.variance, population.variance, hl, hc]

/-- Witness for C4 (amended) at the shared variance fixture. -/
theorem C4_variance_ratio_witness :
    varianceFixture ≠ [] ∧
    (sample.variance varianceFixture (mean varianceFixture) =
      some (Fdiv (Fmul (population.variance varianceFixture (mean varianceFixture))
        (F.num (varianceFixture.length : ℚ)))
        (F.num ((varianceFixture.length - 1 : ℕ) : ℚ))) ∧
    population.variance varianceFixture (mean varianceFixture) = F.num 21704 ∧
    sample.variance varianceFixture (mean varianceFixture) = some (F.num 27130)) :=
  ⟨by decide, C4_variance_ratio varianceFixture (mean varianceFixture) (by decide)⟩

/-- C5: `median_from_sorted` fails on the empty list, returns the element
at index `(n - 1) / 2` for odd length and the average of the elements at
indices `n / 2` and `n / 2 - 1` for even length. -/
theorem C5_median_from_sorted_spec (data : List F) (h : data ≠ []) :
    median_from_sorted ([] : List F) = none ∧
    (data.length % 2 = 1 →
      median_from_sorted data = data[(data.length - 1) / 2]?) ∧
    (data.length % 2 = 0 →
      median_from_sorted data =
        (data[data.length / 2]?).bind fun upper =>
          (data[data.length / 2 - 1]?).map fun lower =>
            Fdiv (Fadd upper lower) (F.num 2)) := by
  have hpos : 0 < data.length := List.length_pos.mpr h
  have hne : data.isEmpty = false := by
    cases data with
    | nil => cases h rfl
    | cons a l => rfl
  refine ⟨rfl, ?_, ?_⟩
  · intro hodd
    have hi : (data.length - 1) / 2 < data.length := by omega
    rw [List.getElem?_eq_getElem hi]
    simp [median_from_sorted, hne, hodd, List.getD_eq_getElem?_getD,
      List.getElem?_eq_getElem hi]
  · intro heven
    have hu : data.length / 2 < data.length := Nat.div_lt_self hpos (by norm_num)
    have hl2 : data.length / 2 - 1 < data.length := by omega
    have hodd' : ¬ (data.length % 2 = 1) := by omega
    rw [List.getElem?_eq_getElem hu, List.getElem?_eq_getElem hl2]
    simp [median_from_sorted, hne, hodd', List.getD_eq_getElem?_getD,
      List.getElem?_eq_getElem hu, List.getElem?_eq_getElem hl2]

/-- Witness for C5 at the sorted lists `[3.0]` and `[1.0, 2.0]`
(odd and even case both exercised through the same theorem shape). -/
theorem C5_median_from_sorted_spec_witness :
    ([F.num 1, F.num 2] : List F) ≠ [] ∧
    (median_from_sorted ([] : List F) = none ∧
    (([F.num 1, F.num 2] : List F).length % 2 = 1 →
      median_from_sorted [F.num 1, F.num 2] =
        [F.num 1, F.num 2][(([F.num 1, F.num 2] : List F).length - 1) / 2]?) ∧
    (([F.num 1, F.num 2] : List F).length % 2 = 0 →
      median_from_sorted [F.num 1, F.num 2] =
        ([F.num 1, F.num 2][(([F.num 1, F.num 2] : List F).length) / 2]?).bind fun upper =>
          ([F.num 1, F.num 2][(([F.num 1, F.num 2] : List F).length) / 2 - 1]?).map fun lower =>
            Fdiv (Fadd upper lower) (F.num 2))) :=
  ⟨by decide, C5_median_from_sorted_spec [F.num 1, F.num 2] (by decide)⟩

/-- If `y <= x` under IEEE `<=` then the sort's `is_less x y` test fails:
the comparator does not report `x` less than `y`. -/
theorem medianCmp_not_lt_of_le (x y : F) (h : Fle y x = true) :
    medianCmp x y ≠ Ordering.lt := by
  cases x <;> cases y <;>
    simp_all [Fle, medianCmp, FcmpPartial, FtoQ0] <;>
    split_ifs at h ⊢ <;> simp_all <;> linarith

/-- Folding the insertion steps over a list whose adjacent pairs ascend
under IEEE `<=` appends each element after the prefix in one step: the
fold yields the reversed list in front of the accumulator, provided the
accumulator's head (the last element already placed) is `<=` the incoming
head. -/
theorem foldInsertRev_sorted :
    ∀ (l acc : List F),
      List.Chain' (fun a b => Fle a b = true) l →
      (∀ hd, l.head? = some hd →
        acc = [] ∨ ∃ y ys, acc = y :: ys ∧ Fle y hd = true) →
      l.foldl (fun a x => insertRev medianCmp x a) acc = l.reverse ++ acc
  | [], _, _, _ => by simp
  | x :: xs, acc, hch, hhd => by
      have hstep : insertRev medianCmp x acc = x :: acc := by
        rcases hhd x rfl with rfl | ⟨y, ys, rfl, hle⟩
        · rfl
        · simp [insertRev, medianCmp_not_lt_of_le x y hle]
      show xs.foldl _ (insertRev medianCmp x acc) = _
      rw [hstep,
        foldInsertRev_sorted xs (x :: acc) (List.chain'_cons'.mp hch).2
          (fun hd hhd2 =>
            Or.inr ⟨x, acc, rfl, (List.chain'_cons'.mp hch).1 hd hhd2⟩)]
      simp

/-- A list already sorted ascending under IEEE `<=` (adjacent pairs) is
left unchanged by the model sort. -/
theorem sortByRust_eq_of_chain (l : List F)
    (h : List.Chain' (fun a b => Fle a b = true) l) :
    sortByRust medianCmp l = l := by
  unfold sortByRust
  rw [foldInsertRev_sorted l [] h (fun _ _ => Or.inl rfl)]
  simp

/-- C6: on a nonempty dataset sorted ascending under IEEE `<=` on
adjacent pairs (which rules NaN out of any dataset of length at least 2,
NaN being `<=`-incomparable), `median_from_sorted` agrees with `median`
(sorting-then-median): sorted data is a fixed point of the sort. -/
theorem C6_median_from_sorted_agrees (data : List F) (_h1 : data ≠ [])
    (h2 : List.Chain' (fun a b => Fle a b = true) data) :
    median_from_sorted data = median data := by
  unfold median
  rw [sortByRust_eq_of_chain data h2]

/-- Witness for C6 at the sorted list `[1.0, 2.0, 3.0]`. -/
theorem C6_median_from_sorted_agrees_witness :
    (([F.num 1, F.num 2, F.num 3] : List F) ≠ [] ∧
      List.Chain' (fun a b => Fle a b = true) [F.num 1, F.num 2, F.num 3]) ∧
    median_from_sorted [F.num 1, F.num 2, F.num 3] =
      median [F.num 1, F.num 2, F.num 3] :=
  have hch : List.Chain' (fun a b => Fle a b = true)
      [F.num 1, F.num 2, F.num 3] :=
    List.chain'_cons.mpr ⟨by decide,
      List.chain'_cons.mpr ⟨by decide, List.chain'_singleton _⟩⟩
  ⟨⟨by decide, hch⟩,
    C6_median_from_sorted_agrees [F.num 1, F.num 2, F.num 3] (by decide) hch⟩

/-- C7: `range` on a nonempty dataset is the single pass folding
`rangeStep` from `(data[0], data[0])`, returning
`(largest - smallest, range / (largest + smallest), (smallest, largest))`;
`rangeStep` skips NaN as a comparison operand (strict `<`/`>` are false),
and a zero `largest + smallest` propagates the IEEE infinity unchanged
(`range [1.0, -1.0]` has coefficient `+inf`). -/
theorem C7_range_spec (data : List F) (x0 : F) (h : data.head? = some x0) :
    range data =
      (fun p => some (Fsub p.2 p.1, Fdiv (Fsub p.2 p.1) (Fadd p.2 p.1), (p.1, p.2)))
        (data.foldl rangeStep (x0, x0)) ∧
    (∀ (p : F × F) (x : F), isNan x = true → rangeStep p x = p) ∧
    range [F.num 1, F.num (-1)] =
      some (F.num 2, F.inf, (F.num (-1), F.num 1)) := by
  refine ⟨?_, ?_, by decide⟩
  · cases data with
    | nil => simp at h
    | cons d0 rest =>
        have hd : d0 = x0 := by simpa using h
        subst hd
        rfl
  · intro p x hx
    obtain ⟨a, b⟩ := p
    cases x <;> simp_all [rangeStep, Flt, Fgt, FcmpPartial, isNan]

/-- Witness for C7 at `data = [3.0, 1.0]`. -/
theorem C7_range_spec_witness :
    ([F.num 3, F.num 1] : List F).head? = some (F.num 3) ∧
    (range [F.num 3, F.num 1] =
      (fun p => some (Fsub p.2 p.1, Fdiv (Fsub p.2 p.1) (Fadd p.2 p.1), (p.1, p.2)))
        (([F.num 3, F.num 1] : List F).foldl rangeStep (F.num 3, F.num 3)) ∧
    (∀ (p : F × F) (x : F), isNan x = true → rangeStep p x = p) ∧
    range [F.num 1, F.num (-1)] =
      some (F.num 2, F.inf, (F.num (-1), F.num 1))) :=
  ⟨rfl, C7_range_spec [F.num 3, F.num 1] (F.num 3) rfl⟩

/-- C9: `z_score` computes
`(sampleMean - populationMean) / (populationStdDev / sqrt sampleSize)`,
`z_score_single_sample` is `z_score` at sample size 1, and the two
concrete examples evaluate to `1.25` and `0.0`. -/
theorem C9_z_score_spec (m : F) (n : ℕ) (mu sigma o : F) :
    sample.z_score m n mu sigma =
      Fdiv (Fsub m mu) (Fdiv sigma (Fsqrt (F.num (n : ℚ)))) ∧
    sample.z_score_single_sample o mu sigma = sample.z_score o 1 mu sigma ∧
    sample.z_score_single_sample (F.num 105) (F.num 100) (F.num 4) = F.num (5/4 : ℚ) ∧
    sample.z_score_single_sample (F.num 100) (F.num 100) (F.num 4) = F.num 0 := by
  exact ⟨rfl, rfl, by decide, by decide⟩

/-- `bump` never produces the empty entry list. -/
theorem bump_ne_nil (k : FKey) (n : F) : ∀ l, bump k n l ≠ []
  | [] => by simp [bump]
  | e :: es => by by_cases h : e.1 = k <;> simp [bump, h]

/-- Folding `bump` steps from a nonempty accumulator stays nonempty. -/
theorem foldBump_ne_nil :
    ∀ (l : List F) (acc : List (FKey × ℕ × F)), acc ≠ [] →
      l.foldl (fun a x => bump (FtoKey x) x a) acc ≠ []
  | [], _, h => h
  | x :: xs, acc, _ => foldBump_ne_nil xs _ (bump_ne_nil (FtoKey x) x acc)

/-- A nonempty dataset produces a nonempty entry list. -/
theorem modeEntries_ne_nil (data : List F) (h : data ≠ []) :
    modeEntries data ≠ [] := by
  cases data with
  | nil => cases h rfl
  | cons d rest =>
      exact foldBump_ne_nil rest _ (bump_ne_nil (FtoKey d) d [])

/-- `bump k' x` adds exactly one to the count stored under `k'` and leaves
every other key's count unchanged. -/
theorem groupCount_bump (k k' : FKey) (x : F) :
    ∀ l, groupCount k (bump k' x l) =
      groupCount k l + (if k' = k then 1 else 0)
  | [] => by simp [bump, groupCount]
  | e :: es => by
      have ih := groupCount_bump k k' x es
      by_cases h : e.1 = k' <;> by_cases hk : e.1 = k <;>
        simp_all [bump, groupCount] <;> omega

/-- Accumulated form: the count stored under `k` after processing `l` is
the count in the accumulator plus the number of elements of `l` whose key
is `k`. -/
theorem groupCount_foldBump (k : FKey) :
    ∀ (l : List F) (acc : List (FKey × ℕ × F)),
      groupCount k (l.foldl (fun a x => bump (FtoKey x) x a) acc) =
        groupCount k acc + l.countP (fun x => decide (FtoKey x = k))
  | [], acc => by simp
  | x :: xs, acc => by
      have ih := groupCount_foldBump k xs (bump (FtoKey x) x acc)
      show groupCount k (xs.foldl _ (bump (FtoKey x) x acc)) = _
      rw [ih, groupCount_bump, List.countP_cons]
      by_cases hx : FtoKey x = k
      · simp [hx]
        omega
      · simp [hx]

/-- The count stored under `k` in `modeEntries data` is the number of
elements of `data` whose string key is `k`: grouping is exactly by key. -/
theorem groupCount_modeEntries (k : FKey) (data : List F) :
    groupCount k (modeEntries data) =
      data.countP (fun x => decide (FtoKey x = k)) := by
  have := groupCount_foldBump k data []
  simpa [modeEntries, groupCount] using this

/-- A value's key is the NaN key exactly when the value is NaN. -/
theorem FtoKey_eq_nanK (x : F) :
    decide (FtoKey x = FKey.nanK) = isNan x := by
  cases x <;> rfl

/-- If the key is already present, `bump` leaves the key list unchanged. -/
theorem bump_keys_mem (k : FKey) (x : F) :
    ∀ l, k ∈ l.map Prod.fst →
      (bump k x l).map Prod.fst = l.map Prod.fst
  | [], h => by simp at h
  | e :: es, h => by
      by_cases he : e.1 = k
      · simp [bump, he]
      · have hk : k ∈ es.map Prod.fst := by
          rcases List.mem_cons.mp h with h1 | h1
          · exact absurd h1.symm he
          · exact h1
        simp [bump, he, bump_keys_mem k x es hk]

/-- If the key is new, `bump` appends it to the key list. -/
theorem bump_keys_not_mem (k : FKey) (x : F) :
    ∀ l, k ∉ l.map Prod.fst →
      (bump k x l).map Prod.fst = l.map Prod.fst ++ [k]
  | [], _ => by simp [bump]
  | e :: es, h => by
      have he : ¬ e.1 = k := fun hek => h (by simp [hek])
      have hk : k ∉ es.map Prod.fst := fun hm => h (by simp [hm])
      simp [bump, he, bump_keys_not_mem k x es hk]

/-- Folding `bump` steps preserves distinctness of the stored keys. -/
theorem foldBump_keys_nodup :
    ∀ (l : List F) (acc : List (FKey × ℕ × F)),
      (acc.map Prod.fst).Nodup →
      ((l.foldl (fun a x => bump (FtoKey x) x a) acc).map Prod.fst).Nodup
  | [], _, h => h
  | x :: xs, acc, h => by
      apply foldBump_keys_nodup xs
      by_cases hm : FtoKey x ∈ acc.map Prod.fst
      · rw [bump_keys_mem (FtoKey x) x acc hm]; exact h
      · rw [bump_keys_not_mem (FtoKey x) x acc hm]
        simp [List.nodup_append, h, hm]

/-- Every entry `bump` produces is either the fresh entry `(k, 1, x)` or
keeps the key and stored representative of an entry of the input list. -/
theorem bump_mem (k : FKey) (x : F) :
    ∀ l e, e ∈ bump k x l →
      e = (k, 1, x) ∨ ∃ e' ∈ l, e.1 = e'.1 ∧ e.2.2 = e'.2.2
  | [], e, h => by
      simp [bump] at h
      exact Or.inl h
  | f :: fs, e, h => by
      by_cases hf : f.1 = k
      · simp only [bump, if_pos hf] at h
        rcases List.mem_cons.mp h with h1 | h1
        · exact Or.inr ⟨f, List.mem_cons_self f fs, by simp [h1]⟩
        · exact Or.inr ⟨e, List.mem_cons_of_mem f h1, rfl, rfl⟩
      · simp only [bump, if_neg hf] at h
        rcases List.mem_cons.mp h with h1 | h1
        · exact Or.inr ⟨f, List.mem_cons_self f fs, by simp [h1]⟩
        · rcases bump_mem k x fs e h1 with h2 | ⟨e', he', h3⟩
          · exact Or.inl h2
          · exact Or.inr ⟨e', List.mem_cons_of_mem f he', h3⟩

/-- Invariant of the grouping fold: every entry's key is the key of its
stored representative, and the representative is an element of `S`
whenever the accumulator satisfies this and all processed elements are
drawn from `S`. -/
theorem foldBump_inv (S : List F) :
    ∀ (l : List F) (acc : List (FKey × ℕ × F)),
      (∀ e ∈ acc, e.1 = FtoKey e.2.2 ∧ e.2.2 ∈ S) →
      (∀ x ∈ l, x ∈ S) →
      ∀ e ∈ l.foldl (fun a x => bump (FtoKey x) x a) acc,
        e.1 = FtoKey e.2.2 ∧ e.2.2 ∈ S
  | [], _, hacc, _, e, he => hacc e he
  | x :: xs, acc, hacc, hl, e, he => by
      refine foldBump_inv S xs (bump (FtoKey x) x acc) ?_ ?_ e he
      · intro f hf
        rcases bump_mem (FtoKey x) x acc f hf with h | ⟨f', hf', h1, h2⟩
        · subst h
          exact ⟨rfl, hl x (List.mem_cons_self x xs)⟩
        · have hf'' := hacc f' hf'
          exact ⟨by rw [h1, hf''.1, h2], h2 ▸ hf''.2⟩
      · intro y hy
        exact hl y (List.mem_cons_of_mem x hy)

/-- `Iterator::max_by` semantics of the count fold: starting from `m0` it
returns an element among `m0` and the list whose count bounds both `m0`'s
count and every list element's count. -/
theorem maxFold_spec :
    ∀ (l : List (FKey × ℕ × F)) (m0 : FKey × ℕ × F),
      ∃ m, l.foldl maxStep (some m0) = some m ∧ (m = m0 ∨ m ∈ l) ∧
        m0.2.1 ≤ m.2.1 ∧ ∀ e ∈ l, e.2.1 ≤ m.2.1
  | [], m0 => ⟨m0, rfl, Or.inl rfl, le_refl _, by simp⟩
  | e :: es, m0 => by
      obtain ⟨m, hm, hmem, hle, hall⟩ :=
        maxFold_spec es (if m0.2.1 > e.2.1 then m0 else e)
      have hstep : (e :: es).foldl maxStep (some m0) =
          es.foldl maxStep (some (if m0.2.1 > e.2.1 then m0 else e)) := by
        show es.foldl maxStep (maxStep (some m0) e) = _
        simp only [maxStep]
        split_ifs <;> rfl
      have hm1 : m0.2.1 ≤ (if m0.2.1 > e.2.1 then m0 else e).2.1 := by
        by_cases hc : m0.2.1 > e.2.1
        · simp [hc]
        · simp only [if_neg hc]; omega
      have he1 : e.2.1 ≤ (if m0.2.1 > e.2.1 then m0 else e).2.1 := by
        by_cases hc : m0.2.1 > e.2.1
        · simp only [if_pos hc]; omega
        · simp [hc]
      refine ⟨m, hstep.trans hm, ?_, le_trans hm1 hle, ?_⟩
      · rcases hmem with hmm | hmm
        · by_cases hc : m0.2.1 > e.2.1
          · rw [if_pos hc] at hmm; exact Or.inl hmm
          · rw [if_neg hc] at hmm
            exact Or.inr (hmm ▸ List.mem_cons_self e es)
        · exact Or.inr (List.mem_cons_of_mem e hmm)
      · intro f hf
        rcases List.mem_cons.mp hf with hf1 | hf2
        · exact hf1 ▸ le_trans he1 hle
        · exact hall f hf2

/-- C10: in `mode`'s grouping by decimal string key, all NaN elements land
in the single `NaN` group (its stored count is exactly the number of NaN
elements, and keys are pairwise distinct); `0.0` and `-0.0` produce two
distinct groups of count 1 each on `[0.0, -0.0]`; and on every nonempty
dataset the returned value is a stored representative present in the
input whose group count is maximal over all groups. -/
theorem C10_mode_spec (data : List F) (h : data ≠ []) :
    groupCount FKey.nanK (modeEntries data) = data.countP isNan ∧
    ((modeEntries data).map Prod.fst).Nodup ∧
    groupCount (FKey.numK 0) (modeEntries [F.num 0, F.negzero]) = 1 ∧
    groupCount FKey.nzeroK (modeEntries [F.num 0, F.negzero]) = 1 ∧
    ∃ m, maxByCount (modeEntries data) = some m ∧ mode data = some m.2.2 ∧
      m.2.2 ∈ data ∧ ∀ e ∈ modeEntries data, e.2.1 ≤ m.2.1 := by
  refine ⟨?_, ?_, by decide, by decide, ?_⟩
  · rw [groupCount_modeEntries]
    congr 1
    exact funext FtoKey_eq_nanK
  · exact foldBump_keys_nodup data [] (by simp)
  · obtain ⟨e, es, hsplit⟩ : ∃ e es, modeEntries data = e :: es := by
      cases hE : modeEntries data with
      | nil => exact absurd hE (modeEntries_ne_nil data h)
      | cons e es => exact ⟨e, es, rfl⟩
    obtain ⟨m, hm, hmem, hle, hall⟩ := maxFold_spec es e
    have hmax : maxByCount (modeEntries data) = some m := by
      rw [hsplit]
      show es.foldl maxStep (maxStep none e) = some m
      exact hm
    have hmement : m ∈ modeEntries data := by
      rw [hsplit]
      rcases hmem with rfl | hmm
      · exact List.mem_cons_self m es
      · exact List.mem_cons_of_mem e hmm
    have hinv := foldBump_inv data data [] (by simp) (fun x hx => hx) m
      (by simpa [modeEntries] using hmement)
    have hie : data.isEmpty = false := by
      cases data with
      | nil => cases h rfl
      | cons a l => rfl
    refine ⟨m, hmax, ?_, hinv.2, ?_⟩
    · simp [mode, hie, hmax]
    · intro f hf
      rw [hsplit] at hf
      rcases List.mem_cons.mp hf with rfl | hf2
      · exact hle
      · exact hall f hf2

/-- Witness for C10 at `data = [1.0]`. -/
theorem C10_mode_spec_witness :
    ([F.num 1] : List F) ≠ [] ∧
    (groupCount FKey.nanK (modeEntries [F.num 1]) =
        ([F.num 1] : List F).countP isNan ∧
    ((modeEntries [F.num 1]).map Prod.fst).Nodup ∧
    groupCount (FKey.numK 0) (modeEntries [F.num 0, F.negzero]) = 1 ∧
    groupCount FKey.nzeroK (modeEntries [F.num 0, F.negzero]) = 1 ∧
    ∃ m, maxByCount (modeEntries [F.num 1]) = some m ∧
      mode [F.num 1] = some m.2.2 ∧ m.2.2 ∈ ([F.num 1] : List F) ∧
      ∀ e ∈ modeEntries [F.num 1], e.2.1 ≤ m.2.1) :=
  ⟨by decide, C10_mode_spec [F.num 1] (by decide)⟩

end Kirstine
